import Mathlib

/-!
Shallow embedding of the raytracer core (src/shape.hpp, src/material.hpp,
src/camera.hpp, src/raytracer.cpp) over exact real arithmetic, together with
theorems settling the specification claims about intersection, scattering,
camera construction and the pixel sampler.
-/

set_option maxHeartbeats 1000000

noncomputable section

/-- Vec3 models the 3-component real vector type vec3 from math.hpp. -/
@[ext]
structure Vec3 where
  x : ℝ
  y : ℝ
  z : ℝ

namespace Vec3

def add (a b : Vec3) : Vec3 := ⟨a.x + b.x, a.y + b.y, a.z + b.z⟩

def sub (a b : Vec3) : Vec3 := ⟨a.x - b.x, a.y - b.y, a.z - b.z⟩

def neg (a : Vec3) : Vec3 := ⟨-a.x, -a.y, -a.z⟩

def smul (s : ℝ) (a : Vec3) : Vec3 := ⟨s * a.x, s * a.y, s * a.z⟩

/-- divs models the componentwise division of a glm vector by a scalar. -/
def divs (a : Vec3) (s : ℝ) : Vec3 := ⟨a.x / s, a.y / s, a.z / s⟩

instance : Add Vec3 := ⟨add⟩

instance : Sub Vec3 := ⟨sub⟩

instance : Neg Vec3 := ⟨neg⟩

instance : SMul ℝ Vec3 := ⟨smul⟩

instance : Zero Vec3 := ⟨⟨0, 0, 0⟩⟩

/-- dot models glm::dot. -/
def dot (a b : Vec3) : ℝ := a.x * b.x + a.y * b.y + a.z * b.z

/-- cross models glm::cross. -/
def cross (a b : Vec3) : Vec3 :=
  ⟨a.y * b.z - a.z * b.y, a.z * b.x - a.x * b.z, a.x * b.y - a.y * b.x⟩

/-- norm2 models glm::length2, the squared euclidean length. -/
def norm2 (a : Vec3) : ℝ := dot a a

/-- normalize models glm::normalize, division by the euclidean length. -/
def normalize (a : Vec3) : Vec3 := divs a (Real.sqrt (norm2 a))

/-- reflect models glm::reflect: I - 2 dot(N, I) N. -/
def reflect (i n : Vec3) : Vec3 := i - (2 * dot n i) • n

/-- refract models glm::refract with ratio eta; a negative k yields the zero
vector. -/
def refract (i n : Vec3) (eta : ℝ) : Vec3 :=
  let d := dot n i
  let k := 1 - eta * eta * (1 - d * d)
  if k < 0 then (0 : Vec3)
  else (eta • i) - ((eta * d + Real.sqrt k) • n)

@[simp] theorem add_x (a b : Vec3) : (a + b).x = a.x + b.x := rfl

@[simp] theorem add_y (a b : Vec3) : (a + b).y = a.y + b.y := rfl

@[simp] theorem add_z (a b : Vec3) : (a + b).z = a.z + b.z := rfl

@[simp] theorem sub_x (a b : Vec3) : (a - b).x = a.x - b.x := rfl

@[simp] theorem sub_y (a b : Vec3) : (a - b).y = a.y - b.y := rfl

@[simp] theorem sub_z (a b : Vec3) : (a - b).z = a.z - b.z := rfl

@[simp] theorem neg_x (a : Vec3) : (-a).x = -a.x := rfl

@[simp] theorem neg_y (a : Vec3) : (-a).y = -a.y := rfl

@[simp] theorem neg_z (a : Vec3) : (-a).z = -a.z := rfl

@[simp] theorem smul_x (s : ℝ) (a : Vec3) : (s • a).x = s * a.x := rfl

@[simp] theorem smul_y (s : ℝ) (a : Vec3) : (s • a).y = s * a.y := rfl

@[simp] theorem smul_z (s : ℝ) (a : Vec3) : (s • a).z = s * a.z := rfl

@[simp] theorem divs_x (a : Vec3) (s : ℝ) : (divs a s).x = a.x / s := rfl

@[simp] theorem divs_y (a : Vec3) (s : ℝ) : (divs a s).y = a.y / s := rfl

@[simp] theorem divs_z (a : Vec3) (s : ℝ) : (divs a s).z = a.z / s := rfl

@[simp] theorem zero_x : (0 : Vec3).x = 0 := rfl

@[simp] theorem zero_y : (0 : Vec3).y = 0 := rfl

@[simp] theorem zero_z : (0 : Vec3).z = 0 := rfl

theorem norm2_nonneg (a : Vec3) : 0 ≤ norm2 a := by
  simp only [norm2, dot]
  nlinarith [sq_nonneg a.x, sq_nonneg a.y, sq_nonneg a.z]

theorem norm2_eq_zero_iff (a : Vec3) : norm2 a = 0 ↔ a = 0 := by
  constructor
  · intro h
    simp only [norm2, dot] at h
    ext <;> simp only [zero_x, zero_y, zero_z] <;>
      nlinarith [sq_nonneg a.x, sq_nonneg a.y, sq_nonneg a.z]
  · intro h
    subst h
    simp [norm2, dot]

theorem norm2_neg (a : Vec3) : norm2 (-a) = norm2 a := by
  simp only [norm2, dot, neg_x, neg_y, neg_z]
  ring

theorem dot_sq_le_norm2_mul_norm2 (a b : Vec3) :
    dot a b * dot a b ≤ norm2 a * norm2 b := by
  simp only [norm2, dot]
  nlinarith [sq_nonneg (a.x * b.y - a.y * b.x), sq_nonneg (a.x * b.z - a.z * b.x),
    sq_nonneg (a.y * b.z - a.z * b.y)]

end Vec3

/-- Ray models rt::ray from camera.hpp: an origin and a direction. -/
structure Ray where
  origin : Vec3
  direction : Vec3

/-- Ray.at models rt::ray::at, the parametric point origin + t * direction. -/
def Ray.at (r : Ray) (t : ℝ) : Vec3 := r.origin + t • r.direction

/-- Material models the three concrete rt::material variants as a closed sum:
lambertian, metal (each with an albedo) and dielectric (with a refractive
index). -/
inductive Material where
  | lambertian (albedo : Vec3)
  | metal (albedo : Vec3)
  | dielectric (refractive_index : ℝ)

/-- Hit models the rt::hit record: point, stored normal, material reference,
parameter t and the front face flag. -/
structure Hit where
  point : Vec3
  normal : Vec3
  material : Material
  t : ℝ
  front_face : Bool

/-- mkHit models the rt::hit constructor: front face is decided by the sign of
dot(ray.direction, outward normal), and the stored normal is the outward
normal flipped onto the front facing side. -/
def mkHit (point outward_normal : Vec3) (material : Material) (ray : Ray) (t : ℝ) : Hit :=
  let ff : Bool := if Vec3.dot ray.direction outward_normal < 0 then true else false
  { point := point
    normal := if ff then outward_normal else -outward_normal
    material := material
    t := t
    front_face := ff }

@[simp] theorem mkHit_point (p n : Vec3) (m : Material) (r : Ray) (t : ℝ) :
    (mkHit p n m r t).point = p := rfl

@[simp] theorem mkHit_material (p n : Vec3) (m : Material) (r : Ray) (t : ℝ) :
    (mkHit p n m r t).material = m := rfl

@[simp] theorem mkHit_t (p n : Vec3) (m : Material) (r : Ray) (t : ℝ) :
    (mkHit p n m r t).t = t := rfl

/-- Sphere models rt::sphere: center, radius and a material. -/
structure Sphere where
  center : Vec3
  radius : ℝ
  material : Material

namespace Sphere

/-- halfB models the quantity half_b = dot(direction, oc) in sphere::hit. -/
def halfB (s : Sphere) (r : Ray) : ℝ := Vec3.dot r.direction (r.origin - s.center)

/-- qa models the quantity a = length2(direction) in sphere::hit. -/
def qa (r : Ray) : ℝ := Vec3.norm2 r.direction

/-- qc models the quantity c = length2(oc) - radius * radius in sphere::hit. -/
def qc (s : Sphere) (r : Ray) : ℝ := Vec3.norm2 (r.origin - s.center) - s.radius * s.radius

/-- disc models the discriminant half_b * half_b - a * c in sphere::hit. -/
def disc (s : Sphere) (r : Ray) : ℝ := halfB s r * halfB s r - qa r * qc s r

/-- root1 models the first entry of the roots array in sphere::hit. -/
def root1 (s : Sphere) (r : Ray) : ℝ := (-halfB s r - Real.sqrt (disc s r)) / qa r

/-- root2 models the second entry of the roots array in sphere::hit. -/
def root2 (s : Sphere) (r : Ray) : ℝ := (-halfB s r + Real.sqrt (disc s r)) / qa r

/-- hitAt models the hit record construction at parameter t in sphere::hit:
the point is ray.at(t) and the outward normal is (point - center) / radius. -/
def hitAt (s : Sphere) (r : Ray) (t : ℝ) : Hit :=
  mkHit (r.at t) (Vec3.divs (r.at t - s.center) s.radius) s.material r t

/-- Sphere.hit models sphere::hit: no hit when the discriminant is at most
zero; otherwise the first of the two roots, in ascending construction order,
that is not outside the closed interval, tested exactly as in the source by
t < t_min or t > t_max. -/
def hit (s : Sphere) (r : Ray) (t_min t_max : ℝ) : Option Hit :=
  if disc s r ≤ 0 then none
  else if root1 s r < t_min ∨ root1 s r > t_max then
    if root2 s r < t_min ∨ root2 s r > t_max then none
    else some (hitAt s r (root2 s r))
  else some (hitAt s r (root1 s r))

end Sphere

/-- worldHitGo models the loop body of world::hit: fold over the objects,
querying each with the current shrinking upper bound and replacing the best
hit whenever the query reports a hit. -/
def worldHitGo (r : Ray) (t_min : ℝ) : List Sphere → Option Hit → ℝ → Option Hit
  | [], best, _ => best
  | o :: os, best, t_nearest =>
    match Sphere.hit o r t_min t_nearest with
    | some h => worldHitGo r t_min os (some h) h.t
    | none => worldHitGo r t_min os best t_nearest

/-- worldHit models world::hit: the loop starts with no hit and the upper
bound t_nearest equal to the callers t_max. -/
def worldHit (objects : List Sphere) (r : Ray) (t_min t_max : ℝ) : Option Hit :=
  worldHitGo r t_min objects none t_max

namespace Sphere

@[simp] theorem hitAt_t (s : Sphere) (r : Ray) (t : ℝ) : (hitAt s r t).t = t := rfl

theorem qa_nonneg (r : Ray) : 0 ≤ qa r := Vec3.norm2_nonneg _

theorem qa_pos_of_disc_pos {s : Sphere} {r : Ray} (hd : 0 < disc s r) : 0 < qa r := by
  rcases (qa_nonneg r).lt_or_eq with h | h
  · exact h
  · exfalso
    have hdir : r.direction = 0 := (Vec3.norm2_eq_zero_iff _).mp h.symm
    have hhb : halfB s r = 0 := by
      simp [halfB, hdir, Vec3.dot]
    have hq : qa r = 0 := h.symm
    have : disc s r = 0 := by
      rw [disc, hhb, hq]
      ring
    linarith

theorem root1_le_root2 {s : Sphere} {r : Ray} (hd : 0 < disc s r) :
    root1 s r ≤ root2 s r := by
  have hqa := qa_pos_of_disc_pos hd
  have hs := Real.sqrt_nonneg (disc s r)
  unfold root1 root2
  have h1 : -halfB s r - Real.sqrt (disc s r) ≤ -halfB s r + Real.sqrt (disc s r) := by
    linarith
  exact div_le_div_of_nonneg_right h1 hqa.le

theorem hit_eq_root1 {s : Sphere} {r : Ray} {t_min t_max : ℝ}
    (hd : ¬ disc s r ≤ 0) (h1 : ¬ (root1 s r < t_min ∨ root1 s r > t_max)) :
    hit s r t_min t_max = some (hitAt s r (root1 s r)) := by
  unfold hit
  rw [if_neg hd, if_neg h1]

theorem hit_eq_root2 {s : Sphere} {r : Ray} {t_min t_max : ℝ}
    (hd : ¬ disc s r ≤ 0) (h1 : root1 s r < t_min ∨ root1 s r > t_max)
    (h2 : ¬ (root2 s r < t_min ∨ root2 s r > t_max)) :
    hit s r t_min t_max = some (hitAt s r (root2 s r)) := by
  unfold hit
  rw [if_neg hd, if_pos h1, if_neg h2]

theorem hit_some_inv {s : Sphere} {r : Ray} {t_min t_max : ℝ} {h : Hit}
    (H : hit s r t_min t_max = some h) :
    0 < disc s r ∧
      ((h = hitAt s r (root1 s r) ∧ t_min ≤ root1 s r ∧ root1 s r ≤ t_max) ∨
        (h = hitAt s r (root2 s r) ∧ (root1 s r < t_min ∨ root1 s r > t_max) ∧
          t_min ≤ root2 s r ∧ root2 s r ≤ t_max)) := by
  unfold hit at H
  by_cases hd : disc s r ≤ 0
  · rw [if_pos hd] at H
    cases H
  rw [if_neg hd] at H
  by_cases h1 : root1 s r < t_min ∨ root1 s r > t_max
  · rw [if_pos h1] at H
    by_cases h2 : root2 s r < t_min ∨ root2 s r > t_max
    · rw [if_pos h2] at H
      cases H
    · rw [if_neg h2] at H
      push_neg at hd h2
      exact ⟨hd, Or.inr ⟨(Option.some.inj H).symm, h1, h2.1, h2.2⟩⟩
  · rw [if_neg h1] at H
    push_neg at hd h1
    exact ⟨hd, Or.inl ⟨(Option.some.inj H).symm, h1.1, h1.2⟩⟩

theorem hit_t_mem {s : Sphere} {r : Ray} {t_min t_max : ℝ} {h : Hit}
    (H : hit s r t_min t_max = some h) : t_min ≤ h.t ∧ h.t ≤ t_max := by
  rcases hit_some_inv H with ⟨hd, ⟨rfl, ha, hb⟩ | ⟨rfl, _, ha, hb⟩⟩ <;>
    simpa using ⟨ha, hb⟩

theorem hit_shrink {s : Sphere} {r : Ray} {t_min t_max t' : ℝ} {h : Hit}
    (H : hit s r t_min t_max = some h) (h1 : h.t ≤ t') (h2 : t' ≤ t_max) :
    hit s r t_min t' = some h := by
  rcases hit_some_inv H with ⟨hd, ⟨rfl, ha, hb⟩ | ⟨rfl, hout, ha, hb⟩⟩
  · simp only [hitAt_t] at h1
    rw [hit_eq_root1 (by linarith) (by push_neg; exact ⟨ha, h1⟩)]
  · simp only [hitAt_t] at h1
    have hout' : root1 s r < t_min ∨ root1 s r > t' := by
      rcases hout with hlt | hgt
      · exact Or.inl hlt
      · exact Or.inr (lt_of_le_of_lt h2 hgt)
    rw [hit_eq_root2 (by linarith) hout' (by push_neg; exact ⟨ha, h1⟩)]

theorem hit_widen {s : Sphere} {r : Ray} {t_min t_max t' : ℝ} {h : Hit}
    (H : hit s r t_min t' = some h) (h2 : t' ≤ t_max) :
    hit s r t_min t_max = some h := by
  rcases hit_some_inv H with ⟨hd, ⟨rfl, ha, hb⟩ | ⟨rfl, hout, ha, hb⟩⟩
  · rw [hit_eq_root1 (by linarith) (by push_neg; exact ⟨ha, hb.trans h2⟩)]
  · have hlt : root1 s r < t_min := by
      rcases hout with hlt | hgt
      · exact hlt
      · exact absurd ((root1_le_root2 hd).trans hb) (not_le.mpr hgt)
    rw [hit_eq_root2 (by linarith) (Or.inl hlt) (by push_neg; exact ⟨ha, hb.trans h2⟩)]

end Sphere

/-- scanStepStrict models one step of the manual linear scan described by the
claim: each object is queried over the callers full interval and only a
strictly closer hit replaces the current best. -/
def scanStepStrict (r : Ray) (t_min t_max : ℝ) (best : Option Hit) (o : Sphere) : Option Hit :=
  match Sphere.hit o r t_min t_max with
  | some h =>
    match best with
    | some b => if h.t < b.t then some h else some b
    | none => some h
  | none => best

/-- nearestScanStrict is the manual linear scan of the claim, recomputing the
minimum t across all objects with a strictly closer replacement policy. -/
def nearestScanStrict (objects : List Sphere) (r : Ray) (t_min t_max : ℝ) : Option Hit :=
  objects.foldl (scanStepStrict r t_min t_max) none

/-- scanStep is one step of the amended manual linear scan: a hit at distance
less than or equal to the current best replaces it, so at exact ties the later
object wins. -/
def scanStep (r : Ray) (t_min t_max : ℝ) (best : Option Hit) (o : Sphere) : Option Hit :=
  match Sphere.hit o r t_min t_max with
  | some h =>
    match best with
    | some b => if h.t ≤ b.t then some h else some b
    | none => some h
  | none => best

/-- nearestScan is the amended manual linear scan recomputing the minimum t
across all objects, resolving exact ties to the later object. -/
def nearestScan (objects : List Sphere) (r : Ray) (t_min t_max : ℝ) : Option Hit :=
  objects.foldl (scanStep r t_min t_max) none

theorem worldHitGo_eq_foldl (r : Ray) (t_min t_max : ℝ) :
    ∀ (os : List Sphere) (best : Option Hit) (tn : ℝ),
      (best = none ∧ tn = t_max ∨ ∃ hb, best = some hb ∧ tn = hb.t ∧ hb.t ≤ t_max) →
      worldHitGo r t_min os best tn = os.foldl (scanStep r t_min t_max) best
  | [], best, tn, _ => by simp [worldHitGo]
  | o :: os, best, tn, hinv => by
    rcases hinv with ⟨rfl, htn⟩ | ⟨hb, rfl, rfl, hle⟩
    · rw [htn]
      simp only [worldHitGo, List.foldl_cons]
      rcases heq : Sphere.hit o r t_min t_max with _ | h
      · rw [show scanStep r t_min t_max none o = none by simp [scanStep, heq]]
        exact worldHitGo_eq_foldl r t_min t_max os none t_max (Or.inl ⟨rfl, rfl⟩)
      · rw [show scanStep r t_min t_max none o = some h by simp [scanStep, heq]]
        exact worldHitGo_eq_foldl r t_min t_max os (some h) h.t
          (Or.inr ⟨h, rfl, rfl, (Sphere.hit_t_mem heq).2⟩)
    · simp only [worldHitGo, List.foldl_cons]
      rcases heq : Sphere.hit o r t_min hb.t with _ | h
      · have hstep : scanStep r t_min t_max (some hb) o = some hb := by
          unfold scanStep
          rcases hfull : Sphere.hit o r t_min t_max with _ | hf
          · simp
          · have hnle : ¬ hf.t ≤ hb.t := by
              intro hcon
              have := Sphere.hit_shrink hfull hcon hle
              rw [heq] at this
              cases this
            simp [hnle]
        rw [hstep]
        exact worldHitGo_eq_foldl r t_min t_max os (some hb) hb.t
          (Or.inr ⟨hb, rfl, rfl, hle⟩)
      · have hmem := Sphere.hit_t_mem heq
        have hfull := Sphere.hit_widen heq hle
        have hstep : scanStep r t_min t_max (some hb) o = some h := by
          unfold scanStep
          rw [hfull]
          simp [hmem.2]
        rw [hstep]
        exact worldHitGo_eq_foldl r t_min t_max os (some h) h.t
          (Or.inr ⟨h, rfl, rfl, le_trans hmem.2 hle⟩)

theorem worldHit_eq_nearestScan (objects : List Sphere) (r : Ray) (t_min t_max : ℝ) :
    worldHit objects r t_min t_max = nearestScan objects r t_min t_max :=
  worldHitGo_eq_foldl r t_min t_max objects none t_max (Or.inl ⟨rfl, rfl⟩)

theorem foldl_scanStep_some (r : Ray) (t_min t_max : ℝ) :
    ∀ (os : List Sphere) (hb : Hit),
      ∃ h, os.foldl (scanStep r t_min t_max) (some hb) = some h
  | [], hb => ⟨hb, rfl⟩
  | o :: os, hb => by
    simp only [List.foldl_cons]
    rcases heq : Sphere.hit o r t_min t_max with _ | h
    · rw [show scanStep r t_min t_max (some hb) o = some hb by simp [scanStep, heq]]
      exact foldl_scanStep_some r t_min t_max os hb
    · by_cases hc : h.t ≤ hb.t
      · rw [show scanStep r t_min t_max (some hb) o = some h by simp [scanStep, heq, hc]]
        exact foldl_scanStep_some r t_min t_max os h
      · rw [show scanStep r t_min t_max (some hb) o = some hb by simp [scanStep, heq, hc]]
        exact foldl_scanStep_some r t_min t_max os hb

theorem nearestScan_eq_none_iff :
    ∀ (objects : List Sphere) (r : Ray) (t_min t_max : ℝ),
      nearestScan objects r t_min t_max = none ↔
        ∀ o ∈ objects, Sphere.hit o r t_min t_max = none
  | [], r, t_min, t_max => by simp [nearestScan]
  | o :: os, r, t_min, t_max => by
    simp only [nearestScan, List.foldl_cons]
    rcases heq : Sphere.hit o r t_min t_max with _ | h
    · rw [show scanStep r t_min t_max none o = none by simp [scanStep, heq]]
      have := nearestScan_eq_none_iff os r t_min t_max
      simp only [nearestScan] at this
      rw [this]
      simp [heq]
    · rw [show scanStep r t_min t_max none o = some h by simp [scanStep, heq]]
      obtain ⟨h', hh'⟩ := foldl_scanStep_some r t_min t_max os h
      rw [hh']
      simp [heq]

theorem worldHit_eq_none_iff (objects : List Sphere) (r : Ray) (t_min t_max : ℝ) :
    worldHit objects r t_min t_max = none ↔
      ∀ o ∈ objects, Sphere.hit o r t_min t_max = none := by
  rw [worldHit_eq_nearestScan]
  exact nearestScan_eq_none_iff objects r t_min t_max

theorem worldHitGo_some_src (r : Ray) (t_min : ℝ) :
    ∀ (os : List Sphere) (best : Option Hit) (tn : ℝ) (h : Hit),
      worldHitGo r t_min os best tn = some h →
      best = some h ∨ ∃ o ∈ os, ∃ b', Sphere.hit o r t_min b' = some h
  | [], best, tn, h, H => Or.inl H
  | o :: os, best, tn, h, H => by
    simp only [worldHitGo] at H
    rcases heq : Sphere.hit o r t_min tn with _ | h0 <;> rw [heq] at H
    · rcases worldHitGo_some_src r t_min os best tn h H with hl | ⟨o', ho', b', hb'⟩
      · exact Or.inl hl
      · exact Or.inr ⟨o', List.mem_cons_of_mem _ ho', b', hb'⟩
    · rcases worldHitGo_some_src r t_min os (some h0) h0.t h H with hl | ⟨o', ho', b', hb'⟩
      · exact Or.inr ⟨o, List.mem_cons_self _ _, tn, by rw [heq, hl]⟩
      · exact Or.inr ⟨o', List.mem_cons_of_mem _ ho', b', hb'⟩

theorem worldHit_some_src {objects : List Sphere} {r : Ray} {t_min t_max : ℝ} {h : Hit}
    (H : worldHit objects r t_min t_max = some h) :
    ∃ o ∈ objects, ∃ b', Sphere.hit o r t_min b' = some h := by
  rcases worldHitGo_some_src r t_min objects none t_max h H with hl | hr
  · cases hl
  · exact hr

theorem mkHit_normal_eq (p n : Vec3) (m : Material) (r : Ray) (t : ℝ) :
    (mkHit p n m r t).normal = if Vec3.dot r.direction n < 0 then n else -n := by
  unfold mkHit
  by_cases h : Vec3.dot r.direction n < 0 <;> simp [h]

theorem mkHit_front_face_eq (p n : Vec3) (m : Material) (r : Ray) (t : ℝ) :
    (mkHit p n m r t).front_face = if Vec3.dot r.direction n < 0 then true else false := rfl

theorem mkHit_norm2_normal (p n : Vec3) (m : Material) (r : Ray) (t : ℝ) :
    Vec3.norm2 (mkHit p n m r t).normal = Vec3.norm2 n := by
  rw [mkHit_normal_eq]
  by_cases h : Vec3.dot r.direction n < 0
  · rw [if_pos h]
  · rw [if_neg h, Vec3.norm2_neg]

theorem dot_neg_right (a b : Vec3) : Vec3.dot a (-b) = -Vec3.dot a b := by
  simp only [Vec3.dot, Vec3.neg_x, Vec3.neg_y, Vec3.neg_z]
  ring

/-- mkHit always orients the stored normal against the incident ray. -/
theorem mkHit_dot_nonpos (p n : Vec3) (m : Material) (r : Ray) (t : ℝ) :
    Vec3.dot r.direction (mkHit p n m r t).normal ≤ 0 := by
  rw [mkHit_normal_eq]
  by_cases h : Vec3.dot r.direction n < 0
  · rw [if_pos h]
    linarith
  · rw [if_neg h, dot_neg_right]
    push_neg at h
    linarith

theorem Vec3.norm2_divs (v : Vec3) (s : ℝ) (hs : s ≠ 0) :
    Vec3.norm2 (Vec3.divs v s) = Vec3.norm2 v / (s * s) := by
  simp only [norm2, dot, divs_x, divs_y, divs_z]
  field_simp

namespace Sphere

theorem radius_ne_zero_of_disc_pos {s : Sphere} {r : Ray} (hd : 0 < disc s r) :
    s.radius ≠ 0 := by
  intro h0
  have hcs := Vec3.dot_sq_le_norm2_mul_norm2 r.direction (r.origin - s.center)
  have hled : disc s r ≤ 0 := by
    simp only [disc, halfB, qa, qc, h0]
    nlinarith [hcs]
  linarith

theorem root_quadratic {s : Sphere} {r : Ray} (hd : 0 < disc s r) {t : ℝ}
    (ht : t = root1 s r ∨ t = root2 s r) :
    qa r * (t * t) + 2 * halfB s r * t + qc s r = 0 := by
  have hqa : qa r ≠ 0 := (qa_pos_of_disc_pos hd).ne'
  have hsq : Real.sqrt (disc s r) * Real.sqrt (disc s r) = disc s r :=
    Real.mul_self_sqrt hd.le
  have hdisc : disc s r = halfB s r * halfB s r - qa r * qc s r := rfl
  rcases ht with rfl | rfl
  · have ht' : qa r * root1 s r = -halfB s r - Real.sqrt (disc s r) := by
      unfold root1
      field_simp
    have hmul : qa r * (qa r * (root1 s r * root1 s r) + 2 * halfB s r * root1 s r + qc s r) = 0 := by
      have expand : qa r * (qa r * (root1 s r * root1 s r) + 2 * halfB s r * root1 s r + qc s r)
          = (qa r * root1 s r) * (qa r * root1 s r) + 2 * halfB s r * (qa r * root1 s r)
            + qa r * qc s r := by
        ring
      rw [expand, ht']
      linear_combination hsq + hdisc
    rcases mul_eq_zero.mp hmul with h | h
    · exact absurd h hqa
    · exact h
  · have ht' : qa r * root2 s r = -halfB s r + Real.sqrt (disc s r) := by
      unfold root2
      field_simp
    have hmul : qa r * (qa r * (root2 s r * root2 s r) + 2 * halfB s r * root2 s r + qc s r) = 0 := by
      have expand : qa r * (qa r * (root2 s r * root2 s r) + 2 * halfB s r * root2 s r + qc s r)
          = (qa r * root2 s r) * (qa r * root2 s r) + 2 * halfB s r * (qa r * root2 s r)
            + qa r * qc s r := by
        ring
      rw [expand, ht']
      linear_combination hsq + hdisc
    rcases mul_eq_zero.mp hmul with h | h
    · exact absurd h hqa
    · exact h

theorem point_on_sphere {s : Sphere} {r : Ray} (hd : 0 < disc s r) {t : ℝ}
    (ht : t = root1 s r ∨ t = root2 s r) :
    Vec3.norm2 (r.at t - s.center) = s.radius * s.radius := by
  have hq := root_quadratic hd ht
  have expand : Vec3.norm2 (r.at t - s.center) =
      qa r * (t * t) + 2 * halfB s r * t + (qc s r + s.radius * s.radius) := by
    simp only [Ray.at, qa, halfB, qc, Vec3.norm2, Vec3.dot, Vec3.add_x, Vec3.add_y,
      Vec3.add_z, Vec3.sub_x, Vec3.sub_y, Vec3.sub_z, Vec3.smul_x, Vec3.smul_y, Vec3.smul_z]
    ring
  rw [expand]
  linarith

theorem hitAt_norm2_normal {s : Sphere} {r : Ray} (hd : 0 < disc s r) {t : ℝ}
    (ht : t = root1 s r ∨ t = root2 s r) :
    Vec3.norm2 (hitAt s r t).normal = 1 := by
  have hrad := radius_ne_zero_of_disc_pos hd
  have hpt := point_on_sphere hd ht
  unfold hitAt
  rw [mkHit_norm2_normal, Vec3.norm2_divs _ _ hrad, hpt]
  field_simp

/-- Every hit reported by sphere::hit carries a unit length normal oriented
against the incident ray. -/
theorem hit_normal_props {s : Sphere} {r : Ray} {t_min t_max : ℝ} {h : Hit}
    (H : hit s r t_min t_max = some h) :
    Vec3.norm2 h.normal = 1 ∧ Vec3.dot r.direction h.normal ≤ 0 := by
  rcases hit_some_inv H with ⟨hd, ⟨rfl, _, _⟩ | ⟨rfl, _, _, _⟩⟩
  · exact ⟨hitAt_norm2_normal hd (Or.inl rfl), mkHit_dot_nonpos _ _ _ _ _⟩
  · exact ⟨hitAt_norm2_normal hd (Or.inr rfl), mkHit_dot_nonpos _ _ _ _ _⟩

end Sphere

theorem mkHit_eq_of_neg {p n : Vec3} {m : Material} {r : Ray} {t : ℝ}
    (h : Vec3.dot r.direction n < 0) :
    mkHit p n m r t = ⟨p, n, m, t, true⟩ := by
  unfold mkHit
  simp [h]

theorem mkHit_eq_of_nonneg {p n : Vec3} {m : Material} {r : Ray} {t : ℝ}
    (h : ¬ Vec3.dot r.direction n < 0) :
    mkHit p n m r t = ⟨p, -n, m, t, false⟩ := by
  unfold mkHit
  simp [h]

/-- matteWhite is the lambertian material with albedo (1, 1, 1) from the demo
scene in raytracer.cpp. -/
def matteWhite : Material := Material.lambertian ⟨1, 1, 1⟩

/-- metallicGold is the metal material with albedo (0.8, 0.6, 0.2) from the
demo scene in raytracer.cpp. -/
def metallicGold : Material := Material.metal ⟨0.8, 0.6, 0.2⟩

/-- exRay is a concrete probe ray from the origin along the positive z axis. -/
def exRay : Ray := ⟨⟨0, 0, 0⟩, ⟨0, 0, 1⟩⟩

/-- exSphere is a unit sphere with material m centered two units along the
z axis, so exRay meets it at parameters 1 and 3. -/
def exSphere (m : Material) : Sphere := ⟨⟨0, 0, 2⟩, 1, m⟩

/-- exHit is the hit record exRay produces on exSphere at parameter 1. -/
def exHit (m : Material) : Hit := ⟨⟨0, 0, 1⟩, ⟨0, 0, -1⟩, m, 1, true⟩

@[simp] theorem exHit_t (m : Material) : (exHit m).t = 1 := rfl

theorem exSphere_halfB (m : Material) : Sphere.halfB (exSphere m) exRay = -2 := by
  simp [Sphere.halfB, exSphere, exRay, Vec3.dot]

theorem exSphere_qa : Sphere.qa exRay = 1 := by
  simp [Sphere.qa, exRay, Vec3.norm2, Vec3.dot]

theorem exSphere_qc (m : Material) : Sphere.qc (exSphere m) exRay = 3 := by
  simp [Sphere.qc, exSphere, exRay, Vec3.norm2, Vec3.dot]
  norm_num

theorem exSphere_disc (m : Material) : Sphere.disc (exSphere m) exRay = 1 := by
  rw [Sphere.disc, exSphere_halfB, exSphere_qa, exSphere_qc]
  norm_num

theorem exSphere_root1 (m : Material) : Sphere.root1 (exSphere m) exRay = 1 := by
  rw [Sphere.root1, exSphere_halfB, exSphere_disc, exSphere_qa, Real.sqrt_one]
  norm_num

theorem exSphere_root2 (m : Material) : Sphere.root2 (exSphere m) exRay = 3 := by
  rw [Sphere.root2, exSphere_halfB, exSphere_disc, exSphere_qa, Real.sqrt_one]
  norm_num

theorem exRay_at_one : exRay.at 1 = ⟨0, 0, 1⟩ := by
  ext <;> simp [Ray.at, exRay]

theorem exRay_at_three : exRay.at 3 = ⟨0, 0, 3⟩ := by
  ext <;> simp [Ray.at, exRay]

theorem exSphere_hitAt_one (m : Material) :
    Sphere.hitAt (exSphere m) exRay 1 = exHit m := by
  unfold Sphere.hitAt
  rw [exRay_at_one]
  have houtward : Vec3.divs ((⟨0, 0, 1⟩ : Vec3) - (exSphere m).center) (exSphere m).radius
      = ⟨0, 0, -1⟩ := by
    ext <;> simp [exSphere] <;> norm_num
  rw [houtward]
  have hdot : Vec3.dot exRay.direction ⟨0, 0, -1⟩ < 0 := by
    simp [exRay, Vec3.dot]
  rw [mkHit_eq_of_neg hdot]
  rfl

theorem exSphere_hit (m : Material) {tmin tmax : ℝ} (h1 : tmin ≤ 1) (h2 : 1 ≤ tmax) :
    Sphere.hit (exSphere m) exRay tmin tmax = some (exHit m) := by
  have hd : ¬ Sphere.disc (exSphere m) exRay ≤ 0 := by
    rw [exSphere_disc]
    norm_num
  have hr1 : ¬ (Sphere.root1 (exSphere m) exRay < tmin ∨ Sphere.root1 (exSphere m) exRay > tmax) := by
    rw [exSphere_root1]
    push_neg
    exact ⟨h1, h2⟩
  rw [Sphere.hit_eq_root1 hd hr1, exSphere_root1, exSphere_hitAt_one]

/-- C10: a world constructed from an empty object list reports no hit for any
ray and any parametric interval. -/
theorem worldHit_nil (r : Ray) (t_min t_max : ℝ) : worldHit [] r t_min t_max = none := rfl

/-- C9: at grazing incidence, when dot(ray.direction, outward normal) is
exactly zero, the hit record constructor classifies the hit as a back face and
stores the negated outward normal. -/
theorem mkHit_grazing (p n : Vec3) (m : Material) (r : Ray) (t : ℝ)
    (h0 : Vec3.dot r.direction n = 0) :
    (mkHit p n m r t).front_face = false ∧ (mkHit p n m r t).normal = -n := by
  have hnotlt : ¬ Vec3.dot r.direction n < 0 := by
    rw [h0]
    norm_num
  constructor
  · rw [mkHit_front_face_eq, if_neg hnotlt]
  · rw [mkHit_normal_eq, if_neg hnotlt]

/-- grazeRay is a probe ray whose direction is orthogonal to grazeNormal. -/
def grazeRay : Ray := ⟨⟨0, 0, 0⟩, ⟨1, 0, 0⟩⟩

/-- grazeNormal is an outward normal orthogonal to grazeRay. -/
def grazeNormal : Vec3 := ⟨0, 1, 0⟩

/-- Witness for C9 at a concrete grazing configuration. -/
theorem mkHit_grazing_witness :
    (mkHit 0 grazeNormal matteWhite grazeRay 1).front_face = false ∧
      (mkHit 0 grazeNormal matteWhite grazeRay 1).normal = -grazeNormal :=
  mkHit_grazing 0 grazeNormal matteWhite grazeRay 1 (by simp [grazeRay, grazeNormal, Vec3.dot])

/-- C3: every hit returned by sphere intersection or world intersection has a
unit length normal satisfying dot(ray.direction, normal) at most zero,
regardless of the sign of the geometric outward normal. -/
theorem hit_normal_unit_and_opposed (s : Sphere) (objects : List Sphere) (r : Ray)
    (t_min t_max : ℝ) (h : Hit)
    (H : Sphere.hit s r t_min t_max = some h ∨ worldHit objects r t_min t_max = some h) :
    Vec3.norm2 h.normal = 1 ∧ Vec3.dot r.direction h.normal ≤ 0 := by
  rcases H with H | H
  · exact Sphere.hit_normal_props H
  · obtain ⟨o, _, b', hb'⟩ := worldHit_some_src H
    exact Sphere.hit_normal_props hb'

/-- Witness for C3 at a concrete sphere hit. -/
theorem hit_normal_unit_and_opposed_witness :
    Vec3.norm2 (exHit matteWhite).normal = 1 ∧
      Vec3.dot exRay.direction (exHit matteWhite).normal ≤ 0 :=
  hit_normal_unit_and_opposed (exSphere matteWhite) [] exRay 0 10 (exHit matteWhite)
    (Or.inl (exSphere_hit matteWhite (by norm_num) (by norm_num)))

theorem worldHit_pair_eval :
    worldHit [exSphere matteWhite, exSphere metallicGold] exRay 0 10
      = some (exHit metallicGold) := by
  have h1 := exSphere_hit matteWhite (by norm_num : (0:ℝ) ≤ 1) (by norm_num : (1:ℝ) ≤ 10)
  have h2 := exSphere_hit metallicGold (by norm_num : (0:ℝ) ≤ 1) (by norm_num : (1:ℝ) ≤ 1)
  simp only [worldHit, worldHitGo, h1, exHit_t, h2]

theorem scanStrict_pair_eval :
    nearestScanStrict [exSphere matteWhite, exSphere metallicGold] exRay 0 10
      = some (exHit matteWhite) := by
  have h1 := exSphere_hit matteWhite (by norm_num : (0:ℝ) ≤ 1) (by norm_num : (1:ℝ) ≤ 10)
  have h2 := exSphere_hit metallicGold (by norm_num : (0:ℝ) ≤ 1) (by norm_num : (1:ℝ) ≤ 10)
  simp only [nearestScanStrict, List.foldl_cons, List.foldl_nil, scanStepStrict, h1, h2,
    exHit_t, lt_irrefl, if_false]

/-- C1 counterexample: with two coincident spheres carrying different
materials, world::hit lets the later hit at the exact same parameter replace
the earlier one, so it differs from the manual scan in which only a strictly
closer hit replaces the current best. -/
theorem worldHit_ne_strict_scan_at_tie :
    worldHit [exSphere matteWhite, exSphere metallicGold] exRay 0 10
      ≠ nearestScanStrict [exSphere matteWhite, exSphere metallicGold] exRay 0 10 := by
  rw [worldHit_pair_eval, scanStrict_pair_eval]
  intro hcontra
  have hrec := Option.some.inj hcontra
  have hmat := congrArg Hit.material hrec
  simp [exHit, matteWhite, metallicGold] at hmat

/-- C1 (amended): world::hit maintains a shrinking upper bound t_nearest
initialized to the callers t_max and replaces the current best with any hit
at parameter at most t_nearest, so at exact ties the later object wins; it
equals the manual linear scan recomputing the minimum t with ties resolved to
the later object, and returns none exactly when no object reports a hit in
the interval. -/
theorem worldHit_nearest (objects : List Sphere) (r : Ray) (t_min t_max : ℝ) :
    worldHit objects r t_min t_max = nearestScan objects r t_min t_max ∧
      (worldHit objects r t_min t_max = none ↔
        ∀ o ∈ objects, Sphere.hit o r t_min t_max = none) :=
  ⟨worldHit_eq_nearestScan objects r t_min t_max, worldHit_eq_none_iff objects r t_min t_max⟩

/-- Witness for C1 at a concrete scene. -/
theorem worldHit_nearest_witness :
    worldHit [exSphere matteWhite] exRay 0 10 = nearestScan [exSphere matteWhite] exRay 0 10 ∧
      (worldHit [exSphere matteWhite] exRay 0 10 = none ↔
        ∀ o ∈ [exSphere matteWhite], Sphere.hit o exRay 0 10 = none) :=
  worldHit_nearest [exSphere matteWhite] exRay 0 10

/-- sphereHitSpecOpen restates the claim side of sphere intersection: a
nonpositive discriminant is a miss, otherwise the smallest root lying strictly
inside the open interval is selected, then the other root, else no hit. -/
def sphereHitSpecOpen (s : Sphere) (r : Ray) (t_min t_max : ℝ) : Option Hit :=
  if Sphere.disc s r ≤ 0 then none
  else
    let tlo := min (Sphere.root1 s r) (Sphere.root2 s r)
    let thi := max (Sphere.root1 s r) (Sphere.root2 s r)
    if t_min < tlo ∧ tlo < t_max then some (Sphere.hitAt s r tlo)
    else if t_min < thi ∧ thi < t_max then some (Sphere.hitAt s r thi)
    else none

/-- sphereHitSpecClosed restates the amended claim side of sphere
intersection: a nonpositive discriminant is a miss, otherwise the smallest
root lying in the closed interval is selected, then the other root, else no
hit. -/
def sphereHitSpecClosed (s : Sphere) (r : Ray) (t_min t_max : ℝ) : Option Hit :=
  if Sphere.disc s r ≤ 0 then none
  else
    let tlo := min (Sphere.root1 s r) (Sphere.root2 s r)
    let thi := max (Sphere.root1 s r) (Sphere.root2 s r)
    if t_min ≤ tlo ∧ tlo ≤ t_max then some (Sphere.hitAt s r tlo)
    else if t_min ≤ thi ∧ thi ≤ t_max then some (Sphere.hitAt s r thi)
    else none

/-- C2 (amended): sphere::hit misses when the discriminant is at most zero
and otherwise selects the smallest root lying within the closed interval from
t_min to t_max, boundary values included, with no hit when neither root
qualifies. -/
theorem sphereHit_eq_spec_closed (s : Sphere) (r : Ray) (t_min t_max : ℝ) :
    Sphere.hit s r t_min t_max = sphereHitSpecClosed s r t_min t_max := by
  unfold Sphere.hit sphereHitSpecClosed
  by_cases hd : Sphere.disc s r ≤ 0
  · rw [if_pos hd, if_pos hd]
  rw [if_neg hd, if_neg hd]
  have hd' : 0 < Sphere.disc s r := lt_of_not_le hd
  have hle := Sphere.root1_le_root2 hd'
  rw [min_eq_left hle, max_eq_right hle]
  by_cases h1 : Sphere.root1 s r < t_min ∨ Sphere.root1 s r > t_max
  · rw [if_pos h1]
    have h1' : ¬ (t_min ≤ Sphere.root1 s r ∧ Sphere.root1 s r ≤ t_max) := by
      push_neg
      intro ha
      rcases h1 with h | h
      · exact absurd ha (not_le.mpr h)
      · exact h
    rw [if_neg h1']
    by_cases h2 : Sphere.root2 s r < t_min ∨ Sphere.root2 s r > t_max
    · rw [if_pos h2]
      have h2' : ¬ (t_min ≤ Sphere.root2 s r ∧ Sphere.root2 s r ≤ t_max) := by
        push_neg
        intro ha
        rcases h2 with h | h
        · exact absurd ha (not_le.mpr h)
        · exact h
      rw [if_neg h2']
    · rw [if_neg h2]
      push_neg at h2
      rw [if_pos h2]
  · rw [if_neg h1]
    push_neg at h1
    rw [if_pos h1]

/-- Witness for C2 at a concrete sphere and interval. -/
theorem sphereHit_eq_spec_closed_witness :
    Sphere.hit (exSphere matteWhite) exRay 0 10
      = sphereHitSpecClosed (exSphere matteWhite) exRay 0 10 :=
  sphereHit_eq_spec_closed (exSphere matteWhite) exRay 0 10

theorem sphereHitSpecOpen_boundary_eval :
    sphereHitSpecOpen (exSphere matteWhite) exRay 1 10
      = some (Sphere.hitAt (exSphere matteWhite) exRay 3) := by
  unfold sphereHitSpecOpen
  rw [if_neg (by rw [exSphere_disc]; norm_num)]
  simp only [exSphere_root1, exSphere_root2]
  rw [min_eq_left (by norm_num : (1:ℝ) ≤ 3), max_eq_right (by norm_num : (1:ℝ) ≤ 3)]
  rw [if_neg (by norm_num), if_pos (by norm_num : (1:ℝ) < 3 ∧ (3:ℝ) < 10)]

/-- C2 counterexample: with a root exactly at t_min, sphere::hit accepts the
boundary root while the claimed open interval selection would skip it and
take the far root instead. -/
theorem sphereHit_ne_spec_open_at_boundary :
    Sphere.hit (exSphere matteWhite) exRay 1 10
      ≠ sphereHitSpecOpen (exSphere matteWhite) exRay 1 10 := by
  rw [exSphere_hit matteWhite (by norm_num) (by norm_num), sphereHitSpecOpen_boundary_eval]
  intro hcontra
  have hrec := Option.some.inj hcontra
  have ht := congrArg Hit.t hrec
  simp only [exHit_t, Sphere.hitAt_t] at ht
  norm_num at ht

/-- Scatter models rt::scatter: a scattered ray plus an attenuation color. -/
structure Scatter where
  ray : Ray
  color : Vec3

/-- epsF is the machine epsilon of float returned by glm::epsilon in the
lambertian degeneracy test. -/
def epsF : ℝ := 1 / 2 ^ 23

/-- lambertianScatter models lambertian::scatter; rv stands for the draw of
random_unit_vector, and the epsilon test models glm::all(glm::epsilonEqual(
direction, vec3(0), epsilon)). -/
def lambertianScatter (albedo rv : Vec3) (ray : Ray) (h : Hit) : Option Scatter :=
  let direction := h.normal + rv
  let direction' :=
    if |direction.x| < epsF ∧ |direction.y| < epsF ∧ |direction.z| < epsF then h.normal
    else direction
  some ⟨⟨h.point, direction'⟩, albedo⟩

/-- metalScatter models metal::scatter: mirror reflection of the normalized
incoming direction, absorbed when the reflected direction points into the
surface. -/
def metalScatter (albedo : Vec3) (ray : Ray) (h : Hit) : Option Scatter :=
  let reflected := Vec3.reflect (Vec3.normalize ray.direction) h.normal
  if Vec3.dot reflected h.normal < 0 then none
  else some ⟨⟨h.point, reflected⟩, albedo⟩

/-- dielectricReflectance models dielectric::reflectance, the Schlick
approximation. -/
def dielectricReflectance (cosine eta : ℝ) : ℝ :=
  let sqrt_r0 := (1 - eta) / (1 + eta)
  let r0 := sqrt_r0 * sqrt_r0
  r0 + (1 - r0) * (1 - cosine) ^ (5 : ℕ)

/-- dielectricScatter models dielectric::scatter; rand stands for the uniform
draw of random_real. -/
def dielectricScatter (refractive_index rand : ℝ) (ray : Ray) (h : Hit) : Option Scatter :=
  let eta := if h.front_face then 1 / refractive_index else refractive_index
  let unit_direction := Vec3.normalize ray.direction
  let cos_theta := min (Vec3.dot (-unit_direction) h.normal) 1
  let sin_theta := Real.sqrt (1 - cos_theta * cos_theta)
  let must_reflect := eta * sin_theta > 1
  let scattered_direction :=
    if must_reflect ∨ dielectricReflectance cos_theta eta > rand then
      Vec3.reflect unit_direction h.normal
    else Vec3.refract unit_direction h.normal eta
  some ⟨⟨h.point, scattered_direction⟩, ⟨1, 1, 1⟩⟩

/-- C5: lambertian scatter never absorbs; metal scatter absorbs exactly when
the mirror reflected direction would travel into the surface; dielectric
scatter never absorbs. -/
theorem scatter_absorption (albedo rv : Vec3) (refractive_index rand : ℝ)
    (ray : Ray) (h : Hit) :
    (lambertianScatter albedo rv ray h).isSome = true ∧
      (metalScatter albedo ray h = none ↔
        Vec3.dot (Vec3.reflect (Vec3.normalize ray.direction) h.normal) h.normal < 0) ∧
      (dielectricScatter refractive_index rand ray h).isSome = true := by
  refine ⟨rfl, ?_, rfl⟩
  unfold metalScatter
  by_cases hc : Vec3.dot (Vec3.reflect (Vec3.normalize ray.direction) h.normal) h.normal < 0
  · simp [hc]
  · simp [hc]

theorem dielectricReflectance_eq (cosine eta : ℝ) :
    dielectricReflectance cosine eta
      = ((1 - eta) / (1 + eta)) ^ (2 : ℕ)
        + (1 - ((1 - eta) / (1 + eta)) ^ (2 : ℕ)) * (1 - cosine) ^ (5 : ℕ) := by
  unfold dielectricReflectance
  ring

theorem if_or_eq_nested {p q : Prop} [Decidable p] [Decidable q] {α : Type} (a b : α) :
    (if p ∨ q then a else b) = if p then a else if q then a else b := by
  by_cases hp : p <;> by_cases hq : q <;> simp [hp, hq]

/-- dielectricScatterSpec restates the claim side of dielectric scattering:
eta is 1/index on the front face and index otherwise; when eta times
sin theta exceeds one, total internal reflection forces a mirror reflection
of the unit incoming direction; otherwise the ray reflects exactly when the
uniform draw falls below the Schlick reflectance r0 + (1 - r0)(1 - cos)^5
with r0 = ((1 - eta)/(1 + eta))^2, and refracts otherwise. -/
def dielectricScatterSpec (refractive_index rand : ℝ) (ray : Ray) (h : Hit) : Option Scatter :=
  let eta := if h.front_face then 1 / refractive_index else refractive_index
  let unit_direction := Vec3.normalize ray.direction
  let cos_theta := min (Vec3.dot (-unit_direction) h.normal) 1
  let sin_theta := Real.sqrt (1 - cos_theta * cos_theta)
  let r0 := ((1 - eta) / (1 + eta)) ^ (2 : ℕ)
  let schlick := r0 + (1 - r0) * (1 - cos_theta) ^ (5 : ℕ)
  let direction :=
    if 1 < eta * sin_theta then Vec3.reflect unit_direction h.normal
    else if rand < schlick then Vec3.reflect unit_direction h.normal
    else Vec3.refract unit_direction h.normal eta
  some ⟨⟨h.point, direction⟩, ⟨1, 1, 1⟩⟩

/-- C6: dielectric::scatter implements exactly the claimed policy on the
refractive ratio, total internal reflection and the Schlick based stochastic
choice between reflection and refraction. -/
theorem dielectricScatter_eq_spec (refractive_index rand : ℝ) (ray : Ray) (h : Hit) :
    dielectricScatter refractive_index rand ray h
      = dielectricScatterSpec refractive_index rand ray h := by
  simp only [dielectricScatter, dielectricScatterSpec, dielectricReflectance_eq, gt_iff_lt]
  rw [if_or_eq_nested]

/-- CreateParameters models rt::camera::create_parameters. -/
structure CreateParameters where
  origin : Vec3
  target : Vec3
  up : Vec3
  vertical_fov : ℝ
  aspect : ℝ
  aperture : ℝ
  focal_length : ℝ

/-- PinholeCamera models the stored state of rt::pinhole_camera. -/
structure PinholeCamera where
  origin : Vec3
  vertical : Vec3
  horizontal : Vec3
  top_left : Vec3

/-- mkPinholeCamera models the pinhole_camera constructor: the viewport
height is 1 * tan(fov / 2), the width is aspect times the height, both scaled
by the focal length along the orthonormal basis built from the up hint. -/
def mkPinholeCamera (p : CreateParameters) : PinholeCamera :=
  let optical_power := Real.tan (p.vertical_fov / 2)
  let viewport_height := 1 * optical_power
  let viewport_width := p.aspect * viewport_height
  let w := Vec3.normalize (p.target - p.origin)
  let u := Vec3.normalize (Vec3.cross w p.up)
  let v := Vec3.cross w u
  let vertical := (p.focal_length * viewport_height) • v
  let horizontal := (p.focal_length * viewport_width) • u
  { origin := p.origin
    vertical := vertical
    horizontal := horizontal
    top_left := p.origin + p.focal_length • w - (0.5 : ℝ) • horizontal - (0.5 : ℝ) • vertical }

/-- ThinLensCamera models the stored state of rt::thin_lens_camera. -/
structure ThinLensCamera where
  origin : Vec3
  vertical : Vec3
  horizontal : Vec3
  top_left : Vec3
  u : Vec3
  v : Vec3
  w : Vec3
  lens_radius : ℝ

/-- mkThinLensCamera models the thin_lens_camera constructor, identical to the
pinhole construction plus the stored basis and the lens radius of half the
aperture. -/
def mkThinLensCamera (p : CreateParameters) : ThinLensCamera :=
  let optical_power := Real.tan (p.vertical_fov / 2)
  let viewport_height := 1 * optical_power
  let viewport_width := p.aspect * viewport_height
  let w := Vec3.normalize (p.target - p.origin)
  let u := Vec3.normalize (Vec3.cross w p.up)
  let v := Vec3.cross w u
  let vertical := (p.focal_length * viewport_height) • v
  let horizontal := (p.focal_length * viewport_width) • u
  { origin := p.origin
    vertical := vertical
    horizontal := horizontal
    top_left := p.origin + p.focal_length • w - (0.5 : ℝ) • horizontal - (0.5 : ℝ) • vertical
    u := u
    v := v
    w := w
    lens_radius := (0.5 : ℝ) * p.aperture }

theorem Vec3.norm2_normalize (v : Vec3) (hv : v ≠ 0) :
    Vec3.norm2 (Vec3.normalize v) = 1 := by
  have hn : Vec3.norm2 v ≠ 0 := fun hc => hv ((Vec3.norm2_eq_zero_iff v).mp hc)
  have hpos : 0 < Vec3.norm2 v := (Vec3.norm2_nonneg v).lt_of_ne (Ne.symm hn)
  have hs : Real.sqrt (Vec3.norm2 v) ≠ 0 := (Real.sqrt_pos.mpr hpos).ne'
  unfold Vec3.normalize
  rw [Vec3.norm2_divs _ _ hs, Real.mul_self_sqrt hpos.le]
  field_simp

theorem Vec3.dot_cross_self (a b : Vec3) : Vec3.dot a (Vec3.cross a b) = 0 := by
  simp only [Vec3.dot, Vec3.cross]
  ring

theorem Vec3.norm2_cross (a b : Vec3) :
    Vec3.norm2 (Vec3.cross a b) = Vec3.norm2 a * Vec3.norm2 b - Vec3.dot a b * Vec3.dot a b := by
  simp only [Vec3.norm2, Vec3.dot, Vec3.cross]
  ring

theorem Vec3.dot_divs (a b : Vec3) (s : ℝ) : Vec3.dot a (Vec3.divs b s) = Vec3.dot a b / s := by
  simp only [Vec3.dot, Vec3.divs_x, Vec3.divs_y, Vec3.divs_z]
  ring

theorem Vec3.dot_normalize_cross_self (a b : Vec3) :
    Vec3.dot a (Vec3.normalize (Vec3.cross a b)) = 0 := by
  unfold Vec3.normalize
  rw [Vec3.dot_divs, Vec3.dot_cross_self, zero_div]

theorem Vec3.norm2_smul (s : ℝ) (a : Vec3) :
    Vec3.norm2 (s • a) = s ^ (2 : ℕ) * Vec3.norm2 a := by
  simp only [Vec3.norm2, Vec3.dot, Vec3.smul_x, Vec3.smul_y, Vec3.smul_z]
  ring

/-- cameraBasisV is the third basis vector v = cross(w, u) computed by both
camera constructors from the parameters. -/
def cameraBasisV (p : CreateParameters) : Vec3 :=
  Vec3.cross (Vec3.normalize (p.target - p.origin))
    (Vec3.normalize (Vec3.cross (Vec3.normalize (p.target - p.origin)) p.up))

theorem cameraBasisV_norm2 (p : CreateParameters) (hT : p.target - p.origin ≠ 0)
    (hC : Vec3.cross (Vec3.normalize (p.target - p.origin)) p.up ≠ 0) :
    Vec3.norm2 (cameraBasisV p) = 1 := by
  unfold cameraBasisV
  rw [Vec3.norm2_cross, Vec3.norm2_normalize _ hT, Vec3.norm2_normalize _ hC,
    Vec3.dot_normalize_cross_self]
  norm_num

attribute [ext] PinholeCamera ThinLensCamera

/-- cameraBasisU is the basis vector u computed by both camera
constructors. -/
def cameraBasisU (p : CreateParameters) : Vec3 :=
  Vec3.normalize (Vec3.cross (Vec3.normalize (p.target - p.origin)) p.up)

/-- cameraBasisW is the forward basis vector w computed by both camera
constructors. -/
def cameraBasisW (p : CreateParameters) : Vec3 :=
  Vec3.normalize (p.target - p.origin)

theorem mkPinholeCamera_vertical (p : CreateParameters) :
    (mkPinholeCamera p).vertical
      = (p.focal_length * (1 * Real.tan (p.vertical_fov / 2))) • cameraBasisV p := rfl

theorem mkPinholeCamera_horizontal (p : CreateParameters) :
    (mkPinholeCamera p).horizontal
      = (p.focal_length * (p.aspect * (1 * Real.tan (p.vertical_fov / 2)))) • cameraBasisU p := rfl

theorem mkPinholeCamera_top_left (p : CreateParameters) :
    (mkPinholeCamera p).top_left
      = p.origin + p.focal_length • cameraBasisW p
        - (0.5 : ℝ) • (mkPinholeCamera p).horizontal
        - (0.5 : ℝ) • (mkPinholeCamera p).vertical := rfl

/-- C7 (amended): the code computes a full viewport height of tan(fov/2), so
the half height is tan(fov/2)/2 and the half width is aspect times that; the
vertical basis vector has squared length (focal_length * tan(fov/2))^2, the
horizontal one (aspect * focal_length * tan(fov/2))^2, the viewport center
sits at the focal distance along w, and the thin lens variant stores exactly
the same viewport vectors. -/
theorem camera_viewport_spec (p : CreateParameters) (hT : p.target - p.origin ≠ 0)
    (hC : Vec3.cross (Vec3.normalize (p.target - p.origin)) p.up ≠ 0) :
    Vec3.norm2 (mkPinholeCamera p).vertical
        = (p.focal_length * Real.tan (p.vertical_fov / 2)) ^ (2 : ℕ) ∧
      Vec3.norm2 (mkPinholeCamera p).horizontal
        = (p.aspect * p.focal_length * Real.tan (p.vertical_fov / 2)) ^ (2 : ℕ) ∧
      (mkPinholeCamera p).top_left + (0.5 : ℝ) • (mkPinholeCamera p).horizontal
          + (0.5 : ℝ) • (mkPinholeCamera p).vertical
        = p.origin + p.focal_length • cameraBasisW p ∧
      (mkThinLensCamera p).vertical = (mkPinholeCamera p).vertical ∧
      (mkThinLensCamera p).horizontal = (mkPinholeCamera p).horizontal ∧
      (mkThinLensCamera p).top_left = (mkPinholeCamera p).top_left := by
  refine ⟨?_, ?_, ?_, rfl, rfl, rfl⟩
  · rw [mkPinholeCamera_vertical, Vec3.norm2_smul, cameraBasisV_norm2 p hT hC]
    ring
  · rw [mkPinholeCamera_horizontal, Vec3.norm2_smul]
    have hu : Vec3.norm2 (cameraBasisU p) = 1 := Vec3.norm2_normalize _ hC
    rw [hu]
    ring
  · rw [mkPinholeCamera_top_left]
    ext <;> simp <;> ring

/-- exParams is a concrete camera configuration with fov pi/2, aspect 2,
focal length 1 and a nondegenerate basis. -/
def exParams : CreateParameters :=
  ⟨⟨0, 0, 0⟩, ⟨0, 0, 1⟩, ⟨0, -1, 0⟩, Real.pi / 2, 2, 0, 1⟩

theorem exParams_sub : exParams.target - exParams.origin = ⟨0, 0, 1⟩ := by
  ext <;> simp [exParams]

theorem normalize_e3 : Vec3.normalize ⟨0, 0, 1⟩ = ⟨0, 0, 1⟩ := by
  have h1 : Vec3.norm2 ⟨0, 0, 1⟩ = 1 := by simp [Vec3.norm2, Vec3.dot]
  unfold Vec3.normalize
  rw [h1, Real.sqrt_one]
  ext <;> simp

theorem normalize_e1 : Vec3.normalize ⟨1, 0, 0⟩ = ⟨1, 0, 0⟩ := by
  have h1 : Vec3.norm2 ⟨1, 0, 0⟩ = 1 := by simp [Vec3.norm2, Vec3.dot]
  unfold Vec3.normalize
  rw [h1, Real.sqrt_one]
  ext <;> simp

theorem exParams_cross : Vec3.cross (⟨0, 0, 1⟩ : Vec3) exParams.up = ⟨1, 0, 0⟩ := by
  ext <;> simp [Vec3.cross, exParams]

theorem exParams_tan : Real.tan (exParams.vertical_fov / 2) = 1 := by
  show Real.tan (Real.pi / 2 / 2) = 1
  rw [show Real.pi / 2 / 2 = Real.pi / 4 by ring, Real.tan_pi_div_four]

theorem exParams_basisV : cameraBasisV exParams = ⟨0, 1, 0⟩ := by
  unfold cameraBasisV
  rw [exParams_sub, normalize_e3, exParams_cross, normalize_e1]
  ext <;> simp [Vec3.cross]

theorem exParams_vertical : (mkPinholeCamera exParams).vertical = ⟨0, 1, 0⟩ := by
  rw [mkPinholeCamera_vertical, exParams_tan, exParams_basisV]
  ext <;> simp [exParams]

/-- C7 counterexample: at fov pi/2, aspect 2, focal length 1, the vertical
span of the constructed camera has squared length 1, not the claimed
(2 * focal_length * tan(fov/2))^2 = 4. -/
theorem camera_vertical_ne_claim :
    Vec3.norm2 (mkPinholeCamera exParams).vertical
      ≠ (2 * exParams.focal_length * Real.tan (exParams.vertical_fov / 2)) ^ (2 : ℕ) := by
  rw [exParams_vertical, exParams_tan]
  have h1 : Vec3.norm2 ⟨0, 1, 0⟩ = 1 := by simp [Vec3.norm2, Vec3.dot]
  rw [h1]
  simp only [exParams]
  norm_num

/-- Witness for C7 at the concrete configuration exParams. -/
theorem camera_viewport_spec_witness :
    Vec3.norm2 (mkPinholeCamera exParams).vertical
        = (exParams.focal_length * Real.tan (exParams.vertical_fov / 2)) ^ (2 : ℕ) ∧
      Vec3.norm2 (mkPinholeCamera exParams).horizontal
        = (exParams.aspect * exParams.focal_length * Real.tan (exParams.vertical_fov / 2)) ^ (2 : ℕ) ∧
      (mkPinholeCamera exParams).top_left + (0.5 : ℝ) • (mkPinholeCamera exParams).horizontal
          + (0.5 : ℝ) • (mkPinholeCamera exParams).vertical
        = exParams.origin + exParams.focal_length • cameraBasisW exParams ∧
      (mkThinLensCamera exParams).vertical = (mkPinholeCamera exParams).vertical ∧
      (mkThinLensCamera exParams).horizontal = (mkPinholeCamera exParams).horizontal ∧
      (mkThinLensCamera exParams).top_left = (mkPinholeCamera exParams).top_left := by
  refine camera_viewport_spec exParams ?_ ?_
  · rw [exParams_sub]
    intro hc
    have hz := congrArg Vec3.z hc
    simp at hz
  · rw [exParams_sub, normalize_e3, exParams_cross]
    intro hc
    have hx := congrArg Vec3.x hc
    simp at hx

/-- degParams is a degenerate camera configuration: the up hint is parallel
to the eye to target direction, so cross(w, up) is the zero vector, and the
aspect is negative. -/
def degParams : CreateParameters :=
  ⟨⟨0, 0, 0⟩, ⟨0, 0, 1⟩, ⟨0, 0, 2⟩, Real.pi / 2, -2, 0, 1⟩

theorem vec3_normalize_zero : Vec3.normalize 0 = 0 := by
  have h0 : Vec3.norm2 0 = 0 := by simp [Vec3.norm2, Vec3.dot]
  unfold Vec3.normalize
  rw [h0, Real.sqrt_zero]
  ext <;> simp

theorem degParams_sub : degParams.target - degParams.origin = ⟨0, 0, 1⟩ := by
  ext <;> simp [degParams]

theorem degParams_cross : Vec3.cross (⟨0, 0, 1⟩ : Vec3) degParams.up = 0 := by
  ext <;> simp [Vec3.cross, degParams]

/-- C8: camera construction performs no fail fast validation: with an up hint
parallel to the view direction (zero cross product) and a negative aspect,
both constructors still return a camera whose basis vectors collapse to the
zero vector in exact arithmetic (the float build yields NaN components from
normalizing the zero vector), so the error surfaces mid render rather than at
construction. -/
theorem camera_construction_no_failfast :
    mkPinholeCamera degParams = ⟨⟨0, 0, 0⟩, ⟨0, 0, 0⟩, ⟨0, 0, 0⟩, ⟨0, 0, 1⟩⟩ ∧
      mkThinLensCamera degParams
        = ⟨⟨0, 0, 0⟩, ⟨0, 0, 0⟩, ⟨0, 0, 0⟩, ⟨0, 0, 1⟩, ⟨0, 0, 0⟩, ⟨0, 0, 0⟩, ⟨0, 0, 1⟩, 0⟩ := by
  constructor
  · simp only [mkPinholeCamera, degParams_sub, normalize_e3, degParams_cross,
      vec3_normalize_zero]
    ext <;> simp [Vec3.cross, degParams]
  · simp only [mkThinLensCamera, degParams_sub, normalize_e3, degParams_cross,
      vec3_normalize_zero]
    ext <;> simp [Vec3.cross, degParams]

/-- gridSize models the stratified grid side computed in sample_at:
ceil(sqrt(count)). -/
def gridSize (count : ℕ) : ℕ := Nat.ceil (Real.sqrt count)

/-- pixelDelta models the pixel footprint delta_u = 1 / width (and
delta_v = 1 / height) in sample_at. -/
def pixelDelta (n : ℕ) : ℝ := 1 / n

/-- jitteredCoord models the stratified sample coordinate computed in
sample_at: u = u0 + i * du * rand, with u0 = k * delta and
du = delta / grid_size. -/
def jitteredCoord (k n count i : ℕ) (rand : ℝ) : ℝ :=
  k * pixelDelta n + i * (pixelDelta n / gridSize count) * rand

/-- sampleAtStratified models the stratified loop of sample_at: one traced
ray per grid cell, each contribution divided by the requested sample count.
Here trace abstracts camera.shoot_ray_at composed with color_in_direction,
and tape supplies the two uniform draws used by cell (i, j). -/
def sampleAtStratified (trace : ℝ → ℝ → Vec3) (x y width height count : ℕ)
    (tape : ℕ → ℕ → ℝ × ℝ) : Vec3 :=
  (List.range (gridSize count)).foldl
    (fun acc i =>
      (List.range (gridSize count)).foldl
        (fun acc2 j =>
          acc2 + Vec3.divs
            (trace (jitteredCoord x width count i (tape i j).1)
              (jitteredCoord y height count j (tape i j).2)) count)
        acc)
    0

theorem gridSize_four : gridSize 4 = 2 := by
  unfold gridSize
  rw [show ((4 : ℕ) : ℝ) = 2 ^ 2 by norm_num, Real.sqrt_sq (by norm_num : (0 : ℝ) ≤ 2)]
  simp

/-- C4: at pixel (0, 0) of a 1 by 1 image with sample count 4 the grid side
is 2, yet the jittered coordinate of sub cell i = 1 with uniform draw 1/4 is
u0 + i * du * rand = 1/8, which lies below the lower edge u0 + i * du = 1/2
of that sub cell: the code multiplies the random draw by i * du instead of
jittering within the sub cell. -/
theorem jitteredCoord_outside_subcell :
    jitteredCoord 0 1 4 1 (1 / 4) = 1 / 8 ∧
      ¬ ((0 : ℕ) * pixelDelta 1 + ((1 : ℕ) : ℝ) * (pixelDelta 1 / gridSize 4)
          ≤ jitteredCoord 0 1 4 1 (1 / 4)) := by
  have hg : gridSize 4 = 2 := gridSize_four
  constructor
  · unfold jitteredCoord pixelDelta
    rw [hg]
    norm_num
  · unfold jitteredCoord pixelDelta
    rw [hg]
    norm_num
